import Mathlib

/-!
Verification of the axiom-kg core (`src/axiom/core.py`) against its
natural-language specification.

The Python core is shallowly embedded: frozen dataclasses become Lean
structures, dicts become insertion-ordered association lists, raised
exceptions become `Option`/`Except` results, and the SHA-256 content digest
of the audit chain is modelled as an abstract function `H : Payload → String`
(the claims about tamper evidence assume the digest is collision-free, which
we render as injectivity of `H`; a concrete injective `H` is exhibited for
witnesses).  Wall-clock timestamps (`time.time()`) are modelled as natural
numbers supplied as data.
-/

namespace AxiomKG

/-! ## SemanticID (`src/axiom/core.py`, class SemanticID)

Python's `SemanticID` is a frozen dataclass of four ints whose
`__post_init__` enforces the bounds; `Valid` states those bounds and
`mkSemanticID` is the checked constructor (`SemanticID.create` /
`SemanticID(...)`, with `SemanticIDError` rendered as `none`). -/

@[ext]
structure SemanticID where
  major : Nat
  type_ : Nat
  subtype : Nat
  instance_ : Nat
deriving DecidableEq, Repr

/-- The bounds enforced by `SemanticID.__post_init__`. -/
def SemanticID.Valid (c : SemanticID) : Prop :=
  1 ≤ c.major ∧ c.major ≤ 8 ∧
  1 ≤ c.type_ ∧ c.type_ ≤ 99 ∧
  1 ≤ c.subtype ∧ c.subtype ≤ 99 ∧
  1 ≤ c.instance_ ∧ c.instance_ ≤ 9999

instance (c : SemanticID) : Decidable c.Valid := by
  unfold SemanticID.Valid; infer_instance

/-- `SemanticID.create` / the validating constructor: returns `none` where
Python raises `SemanticIDError`. -/
def mkSemanticID (major type_ subtype instance_ : Nat) : Option SemanticID :=
  let c : SemanticID := ⟨major, type_, subtype, instance_⟩
  if c.Valid then some c else none

/-- Canonical string form (the `code` property, `f"{major:02d}-{type_:02d}-{subtype:02d}-{instance:04d}"`).
For all constructible (in-bounds) ids the Python format yields exactly two,
two, two and four zero-padded decimal digits, which is what the digit
extraction below produces. -/
def code (c : SemanticID) : String :=
  String.mk
    [Nat.digitChar (c.major / 10), Nat.digitChar (c.major % 10), '-',
     Nat.digitChar (c.type_ / 10), Nat.digitChar (c.type_ % 10), '-',
     Nat.digitChar (c.subtype / 10), Nat.digitChar (c.subtype % 10), '-',
     Nat.digitChar (c.instance_ / 1000), Nat.digitChar (c.instance_ / 100 % 10),
     Nat.digitChar (c.instance_ / 10 % 10), Nat.digitChar (c.instance_ % 10)]

/-- Numeric value of a decimal digit character. -/
def charVal (c : Char) : Nat := c.toNat - 48

/-- `SemanticID.parse`: the strict `MM-TT-SS-XXXX` regex followed by the
validating constructor. `none` covers both `SemanticIDError`s (bad format
and out-of-range fields). -/
def parse (s : String) : Option SemanticID :=
  match s.data with
  | [m1, m2, '-', t1, t2, '-', s1, s2, '-', i1, i2, i3, i4] =>
    if m1.isDigit && m2.isDigit && t1.isDigit && t2.isDigit &&
       s1.isDigit && s2.isDigit && i1.isDigit && i2.isDigit &&
       i3.isDigit && i4.isDigit then
      mkSemanticID (10 * charVal m1 + charVal m2)
        (10 * charVal t1 + charVal t2)
        (10 * charVal s1 + charVal s2)
        (1000 * charVal i1 + 100 * charVal i2 + 10 * charVal i3 + charVal i4)
    else none
  | _ => none

/-- `shares_category`: same major. -/
def sharesCategory (a b : SemanticID) : Prop := a.major = b.major

/-- `shares_type`: same major and type. -/
def sharesType (a b : SemanticID) : Prop :=
  a.major = b.major ∧ a.type_ = b.type_

/-- `shares_subtype`: same major, type and subtype. -/
def sharesSubtype (a b : SemanticID) : Prop :=
  a.major = b.major ∧ a.type_ = b.type_ ∧ a.subtype = b.subtype

instance (a b : SemanticID) : Decidable (sharesCategory a b) := by
  unfold sharesCategory; infer_instance
instance (a b : SemanticID) : Decidable (sharesType a b) := by
  unfold sharesType; infer_instance
instance (a b : SemanticID) : Decidable (sharesSubtype a b) := by
  unfold sharesSubtype; infer_instance

/-- `SemanticID.distance`: first the canonical-code comparison (Python
`self.code == other.code`), then the tier cascade. -/
def distance (a b : SemanticID) : Nat :=
  if code a = code b then 0
  else if sharesSubtype a b then 1
  else if sharesType a b then 2
  else if sharesCategory a b then 3
  else 4

/-- The four-tier rule as the specification words it (field-wise, first
matching rule).  Used only to compare `distance` against the spec text. -/
def specDistanceTiers (a b : SemanticID) : Nat :=
  if a = b then 0
  else if a.major = b.major ∧ a.type_ = b.type_ ∧ a.subtype = b.subtype then 1
  else if a.major = b.major ∧ a.type_ = b.type_ then 2
  else if a.major = b.major then 3
  else 4

/-! ### Round-trip and code injectivity -/

lemma digitChar_isDigit {n : Nat} (h : n < 10) : (Nat.digitChar n).isDigit = true := by
  interval_cases n <;> decide

lemma charVal_digitChar {n : Nat} (h : n < 10) : charVal (Nat.digitChar n) = n := by
  interval_cases n <;> decide

lemma parse_code_of_valid (c : SemanticID) (hv : c.Valid) : parse (code c) = some c := by
  obtain ⟨h1, h2, h3, h4, h5, h6, h7, h8⟩ := hv
  have hm1 : c.major / 10 < 10 := by omega
  have hm2 : c.major % 10 < 10 := by omega
  have ht1 : c.type_ / 10 < 10 := by omega
  have ht2 : c.type_ % 10 < 10 := by omega
  have hs1 : c.subtype / 10 < 10 := by omega
  have hs2 : c.subtype % 10 < 10 := by omega
  have hi1 : c.instance_ / 1000 < 10 := by omega
  have hi2 : c.instance_ / 100 % 10 < 10 := by omega
  have hi3 : c.instance_ / 10 % 10 < 10 := by omega
  have hi4 : c.instance_ % 10 < 10 := by omega
  show parse (code c) = some c
  unfold parse code
  simp only [digitChar_isDigit hm1, digitChar_isDigit hm2, digitChar_isDigit ht1,
    digitChar_isDigit ht2, digitChar_isDigit hs1, digitChar_isDigit hs2,
    digitChar_isDigit hi1, digitChar_isDigit hi2, digitChar_isDigit hi3,
    digitChar_isDigit hi4, charVal_digitChar hm1, charVal_digitChar hm2,
    charVal_digitChar ht1, charVal_digitChar ht2, charVal_digitChar hs1,
    charVal_digitChar hs2, charVal_digitChar hi1, charVal_digitChar hi2,
    charVal_digitChar hi3, charVal_digitChar hi4, Bool.and_self, if_true]
  have em : 10 * (c.major / 10) + c.major % 10 = c.major := by omega
  have et : 10 * (c.type_ / 10) + c.type_ % 10 = c.type_ := by omega
  have es : 10 * (c.subtype / 10) + c.subtype % 10 = c.subtype := by omega
  have ei : 1000 * (c.instance_ / 1000) + 100 * (c.instance_ / 100 % 10) +
      10 * (c.instance_ / 10 % 10) + c.instance_ % 10 = c.instance_ := by omega
  rw [em, et, es, ei]
  unfold mkSemanticID
  have : SemanticID.Valid ⟨c.major, c.type_, c.subtype, c.instance_⟩ := by
    exact ⟨h1, h2, h3, h4, h5, h6, h7, h8⟩
  simp [this]

lemma code_inj_of_valid {a b : SemanticID} (ha : a.Valid) (hb : b.Valid) :
    code a = code b ↔ a = b := by
  constructor
  · intro h
    have := parse_code_of_valid a ha
    rw [h, parse_code_of_valid b hb] at this
    exact (Option.some.injEq _ _ ▸ this).symm
  · intro h; rw [h]

lemma specDistanceTiers_le_four (a b : SemanticID) : specDistanceTiers a b ≤ 4 := by
  unfold specDistanceTiers
  split_ifs <;> omega

/-- **C7**: for every quadruple within the declared bounds, parsing the
canonical zero-padded string form yields the original coordinate:
`parse (code c) = some c`. -/
theorem parse_code_roundtrip (c : SemanticID) (h : c.Valid) : parse (code c) = some c :=
  parse_code_of_valid c h

/-- Witness for C7 at the concrete coordinate `01-02-03-0004`. -/
theorem parse_code_roundtrip_witness :
    parse (code ⟨1, 2, 3, 4⟩) = some ⟨1, 2, 3, 4⟩ :=
  parse_code_roundtrip ⟨1, 2, 3, 4⟩ (by decide)

/-- **C2**: for valid coordinates, `distance` is symmetric, zero on the
diagonal, agrees exactly with the spec's four-tier rule (identical → 0,
same subtype → 1, same type → 2, same major → 3, otherwise 4), and never
returns any other value. -/
theorem distance_four_tiers (a b : SemanticID) (ha : a.Valid) (hb : b.Valid) :
    distance a b = distance b a ∧ distance a a = 0 ∧
    distance a b = specDistanceTiers a b ∧ distance a b ≤ 4 := by
  have hc : code a = code b ↔ a = b := code_inj_of_valid ha hb
  have hc' : code b = code a ↔ b = a := code_inj_of_valid hb ha
  have htier : distance a b = specDistanceTiers a b := by
    unfold distance specDistanceTiers sharesSubtype sharesType sharesCategory
    simp only [hc, SemanticID.ext_iff]
  have htier' : distance b a = specDistanceTiers b a := by
    unfold distance specDistanceTiers sharesSubtype sharesType sharesCategory
    simp only [hc', SemanticID.ext_iff]
  refine ⟨?_, ?_, htier, htier ▸ specDistanceTiers_le_four a b⟩
  · rw [htier, htier']
    unfold specDistanceTiers
    simp only [SemanticID.ext_iff]
    split_ifs <;> omega
  · unfold distance
    simp

/-- Witness for C2 on the concrete pair `01-02-03-0001` / `01-02-04-0001`
(same type, different subtype: tier 2). -/
theorem distance_four_tiers_witness :
    distance ⟨1, 2, 3, 1⟩ ⟨1, 2, 4, 1⟩ = distance ⟨1, 2, 4, 1⟩ ⟨1, 2, 3, 1⟩ ∧
    distance ⟨1, 2, 3, 1⟩ ⟨1, 2, 3, 1⟩ = 0 ∧
    distance ⟨1, 2, 3, 1⟩ ⟨1, 2, 4, 1⟩ = specDistanceTiers ⟨1, 2, 3, 1⟩ ⟨1, 2, 4, 1⟩ ∧
    distance ⟨1, 2, 3, 1⟩ ⟨1, 2, 4, 1⟩ ≤ 4 :=
  distance_four_tiers ⟨1, 2, 3, 1⟩ ⟨1, 2, 4, 1⟩ (by decide) (by decide)

/-! ## Relation types and nodes (`RelationType`, `Node`)

Python dicts are modelled as insertion-ordered association lists with
last-write-wins update (`ainsert`), matching CPython dict semantics. -/

inductive RelationType where
  | IS_A | PART_OF | HAS_PROPERTY | CAUSES | LOCATED_IN
  | OCCURS_AT | SIMILAR_TO | CONTRADICTS | FORKED_FROM | DERIVED_FROM
deriving DecidableEq, Repr

/-- Dict lookup (`m.get(k)` / `k in m`). -/
def alookup {κ β : Type} [DecidableEq κ] (k : κ) : List (κ × β) → Option β
  | [] => none
  | (k', v) :: rest => if k = k' then some v else alookup k rest

/-- Replace the value stored at an existing key, in place. -/
def aupdate {κ β : Type} [DecidableEq κ] (k : κ) (f : β → β) : List (κ × β) → List (κ × β)
  | [] => []
  | (k', v) :: rest => if k = k' then (k', f v) :: rest else (k', v) :: aupdate k f rest

/-- Dict assignment `m[k] = v`: overwrite in place if present, else append. -/
def ainsert {κ β : Type} [DecidableEq κ] (k : κ) (v : β) (m : List (κ × β)) : List (κ × β) :=
  if (alookup k m).isSome then aupdate k (fun _ => v) m else m ++ [(k, v)]

/-- `Node`: a mutable dataclass.  `metadata` values are only ever the strings
this code base stores (`forked_from` holds a coordinate code), so the opaque
`Any` values are modelled as `String`. -/
structure Node where
  id : SemanticID
  label : String
  metadata : List (String × String) := []
  relations : List (RelationType × List String) := []
deriving DecidableEq, Repr

/-- `Node.add_relation`: create the empty bucket if the kind is absent, then
append the target's code if not already present. -/
def Node.addRelation (n : Node) (rt : RelationType) (target : Node) : Node :=
  let rels := if (alookup rt n.relations).isSome then n.relations
              else n.relations ++ [(rt, [])]
  let tc := code target.id
  { n with relations := aupdate rt (fun l => if tc ∈ l then l else l ++ [tc]) rels }

/-- `Node.get_relations`. -/
def Node.getRelations (n : Node) (rt : RelationType) : List String :=
  (alookup rt n.relations).getD []

/-- `Node.relation_count`: total number of stored target codes. -/
def Node.relationCount (n : Node) : Nat :=
  (n.relations.map (fun p => p.2.length)).sum

/-- `Node.__eq__` chains to `SemanticID.__eq__`, which compares canonical
codes; `pyEq` is that comparison. -/
def Node.pyEq (a b : Node) : Bool := code a.id == code b.id

/-- `Node.__hash__` is `hash(self.id)` = `hash(self.id.code)`; the value fed
to Python's string hash is the canonical code. -/
def Node.pyHashKey (n : Node) : String := code n.id

/-- **C10**: node equality and hashing depend only on the coordinate id —
two nodes compare equal iff their canonical codes are equal, whatever their
labels, metadata or relations, and the hash input is determined by the code. -/
theorem node_eq_hash_by_id (a b : Node) :
    (Node.pyEq a b = true ↔ code a.id = code b.id) ∧
    (∀ l₁ m₁ r₁ l₂ m₂ r₂, Node.pyEq ⟨a.id, l₁, m₁, r₁⟩ ⟨a.id, l₂, m₂, r₂⟩ = true) ∧
    (Node.pyEq a b = true → Node.pyHashKey a = Node.pyHashKey b) := by
  refine ⟨?_, ?_, ?_⟩
  · simp [Node.pyEq]
  · intro l₁ m₁ r₁ l₂ m₂ r₂
    simp [Node.pyEq]
  · intro h
    simpa [Node.pyEq, Node.pyHashKey] using h

/-! ## AuditLog (`AuditEntry`, `AuditLog.append/verify/last`)

`_compute_hash` (SHA-256 over the canonically JSON-encoded payload) is
modelled as a function `H : Payload → String` supplied as a parameter; the
tamper-evidence claim assumes the digest is collision-free over encoded
payloads, which we state as injectivity of `H`.  `args` values are the
stringified primitives Python logs. -/

structure Payload where
  index : Nat
  timestamp : Nat
  action : String
  args : List String
  prev_hash : String
deriving DecidableEq, Repr

structure AuditEntry where
  index : Nat
  timestamp : Nat
  action : String
  args : List String
  prev_hash : String
  hash : String
deriving DecidableEq, Repr

/-- `AuditLog.GENESIS_HASH = "0" * 64`. -/
def GENESIS_HASH : String := String.mk (List.replicate 64 '0')

/-- The dict handed to `_compute_hash` in both `append` and `verify`. -/
def payloadOf (e : AuditEntry) : Payload :=
  ⟨e.index, e.timestamp, e.action, e.args, e.prev_hash⟩

/-- `AuditLog.append`: previous hash from the last entry (or genesis),
content hash over the new payload, entry appended at the end. -/
def appendE (H : Payload → String) (es : List AuditEntry)
    (timestamp : Nat) (action : String) (args : List String) : List AuditEntry :=
  let index := es.length
  let prev_hash := match es.getLast? with
    | some e => e.hash
    | none => GENESIS_HASH
  let p : Payload := ⟨index, timestamp, action, args, prev_hash⟩
  es ++ [⟨index, timestamp, action, args, prev_hash, H p⟩]

/-- One `append(action, *args)` call with its wall-clock timestamp. -/
structure AppendOp where
  timestamp : Nat
  action : String
  args : List String
deriving DecidableEq, Repr

/-- A sequence of `append` calls on a fresh `AuditLog`. -/
def buildChain (H : Payload → String) (ops : List AppendOp) : List AuditEntry :=
  ops.foldl (fun es op => appendE H es op.timestamp op.action op.args) []

/-- `AuditLog.verify`, walking the entries with the expected previous hash:
linkage against the previous entry's stored hash (genesis at index 0) and
recomputation of the content hash.  The conjunction of all checks equals
Python's first-mismatch-returns-false loop. -/
def verifyFrom (H : Payload → String) (prev : String) : List AuditEntry → Bool
  | [] => true
  | e :: rest =>
    (e.prev_hash == prev) && (H (payloadOf e) == e.hash) && verifyFrom H e.hash rest

def verify (H : Payload → String) (es : List AuditEntry) : Bool :=
  verifyFrom H GENESIS_HASH es

/-- `AuditLog.last(n)` is `self._entries[-n:]`: for `n ≥ 1` the final
`min n length` entries, but for `n = 0` Python's `-0 == 0` makes the slice
the **whole** list. -/
def lastEntries (es : List AuditEntry) (n : Nat) : List AuditEntry :=
  if n = 0 then es else es.drop (es.length - n)

/-! ### Chain well-formation after appends -/

/-- Every entry links to the hash before it and stores the recomputed
content hash. -/
def goodChain (H : Payload → String) (prev : String) : List AuditEntry → Prop
  | [] => True
  | e :: rest => e.prev_hash = prev ∧ e.hash = H (payloadOf e) ∧ goodChain H e.hash rest

/-- The hash the next appended entry will link to. -/
def lastHash (prev : String) (es : List AuditEntry) : String :=
  match es.getLast? with
  | some e => e.hash
  | none => prev

lemma goodChain_snoc {H : Payload → String} {prev : String} {es : List AuditEntry}
    (hg : goodChain H prev es) (e : AuditEntry)
    (hp : e.prev_hash = lastHash prev es) (hh : e.hash = H (payloadOf e)) :
    goodChain H prev (es ++ [e]) := by
  induction es generalizing prev with
  | nil =>
    simp only [List.nil_append, goodChain]
    exact ⟨by simpa [lastHash] using hp, hh, trivial⟩
  | cons a rest ih =>
    obtain ⟨h1, h2, h3⟩ := hg
    refine ⟨h1, h2, ih h3 ?_⟩
    rcases rest with _ | ⟨b, rest'⟩
    · simpa [lastHash] using hp
    · simpa [lastHash] using hp

lemma goodChain_appendE {H : Payload → String} {es : List AuditEntry}
    (hg : goodChain H GENESIS_HASH es) (t : Nat) (a : String) (args : List String) :
    goodChain H GENESIS_HASH (appendE H es t a args) := by
  unfold appendE
  exact goodChain_snoc hg _ (by simp [lastHash]) rfl

lemma buildChain_good (H : Payload → String) (ops : List AppendOp) :
    goodChain H GENESIS_HASH (buildChain H ops) := by
  suffices h : ∀ es, goodChain H GENESIS_HASH es →
      goodChain H GENESIS_HASH
        (ops.foldl (fun es op => appendE H es op.timestamp op.action op.args) es) by
    exact h [] trivial
  induction ops with
  | nil => intro es hes; exact hes
  | cons op rest ih =>
    intro es hes
    exact ih _ (goodChain_appendE hes op.timestamp op.action op.args)

lemma verifyFrom_of_goodChain {H : Payload → String} :
    ∀ {es : List AuditEntry} {prev : String}, goodChain H prev es →
      verifyFrom H prev es = true := by
  intro es
  induction es with
  | nil => intro prev _; rfl
  | cons e rest ih =>
    intro prev hg
    obtain ⟨h1, h2, h3⟩ := hg
    simp [verifyFrom, h1, h2.symm, ih h3]

/-! ### Tamper evidence -/

/-- `e'` is `e` with exactly one of the five stored fields the claim names
(action, args, timestamp, prev_hash, hash) changed to a different value. -/
def oneFieldDiff (e e' : AuditEntry) : Prop :=
  e'.index = e.index ∧
  ((e'.timestamp ≠ e.timestamp ∧ e'.action = e.action ∧ e'.args = e.args ∧
      e'.prev_hash = e.prev_hash ∧ e'.hash = e.hash) ∨
   (e'.timestamp = e.timestamp ∧ e'.action ≠ e.action ∧ e'.args = e.args ∧
      e'.prev_hash = e.prev_hash ∧ e'.hash = e.hash) ∨
   (e'.timestamp = e.timestamp ∧ e'.action = e.action ∧ e'.args ≠ e.args ∧
      e'.prev_hash = e.prev_hash ∧ e'.hash = e.hash) ∨
   (e'.timestamp = e.timestamp ∧ e'.action = e.action ∧ e'.args = e.args ∧
      e'.prev_hash ≠ e.prev_hash ∧ e'.hash = e.hash) ∨
   (e'.timestamp = e.timestamp ∧ e'.action = e.action ∧ e'.args = e.args ∧
      e'.prev_hash = e.prev_hash ∧ e'.hash ≠ e.hash))

instance (e e' : AuditEntry) : Decidable (oneFieldDiff e e') := by
  unfold oneFieldDiff; infer_instance

lemma verifyFrom_set_of_oneFieldDiff {H : Payload → String}
    (hinj : Function.Injective H) :
    ∀ (es : List AuditEntry) (prev : String) (i : Nat) (hi : i < es.length)
      (e' : AuditEntry), goodChain H prev es → oneFieldDiff (es.get ⟨i, hi⟩) e' →
      verifyFrom H prev (es.set i e') = false := by
  intro es
  induction es with
  | nil => intro prev i hi; simp at hi
  | cons e rest ih =>
    intro prev i hi e' hg hd
    obtain ⟨hprev, hhash, hrest⟩ := hg
    cases i with
    | zero =>
      simp only [List.get] at hd
      obtain ⟨hidx, hcase⟩ := hd
      simp only [List.set, verifyFrom]
      rcases hcase with ⟨h1, h2, h3, h4, h5⟩ | ⟨h1, h2, h3, h4, h5⟩ |
        ⟨h1, h2, h3, h4, h5⟩ | ⟨h1, h2, h3, h4, h5⟩ | ⟨h1, h2, h3, h4, h5⟩
      -- timestamp changed: the recomputed hash cannot match the stored one
      · have : H (payloadOf e') ≠ e'.hash := by
          intro hEq
          have : payloadOf e' = payloadOf e := hinj (by
            rw [hEq, h5, hhash])
          have := congrArg Payload.timestamp this
          simp [payloadOf] at this
          exact h1 this
        simp [this]
      -- action changed
      · have : H (payloadOf e') ≠ e'.hash := by
          intro hEq
          have : payloadOf e' = payloadOf e := hinj (by rw [hEq, h5, hhash])
          have := congrArg Payload.action this
          simp [payloadOf] at this
          exact h2 this
        simp [this]
      -- args changed
      · have : H (payloadOf e') ≠ e'.hash := by
          intro hEq
          have : payloadOf e' = payloadOf e := hinj (by rw [hEq, h5, hhash])
          have := congrArg Payload.args this
          simp [payloadOf] at this
          exact h3 this
        simp [this]
      -- prev_hash changed: linkage check fails
      · have : e'.prev_hash ≠ prev := by rw [← hprev]; exact h4
        simp [this]
      -- stored hash changed: recomputation no longer matches it
      · have hpl : payloadOf e' = payloadOf e := by
          unfold payloadOf
          rw [hidx, h1, h2, h3, h4]
        have : H (payloadOf e') ≠ e'.hash := by
          rw [hpl, ← hhash]
          exact fun hEq => h5 hEq.symm
        simp [this]
    | succ j =>
      have hj : j < rest.length := by simpa using hi
      simp only [List.get] at hd
      have := ih e.hash j hj e' hrest hd
      simp [List.set, verifyFrom, this]

/-- **C1**: with a collision-free digest, `verify()` is true after any
sequence of `append` calls, and mutating any single stored field (action,
args, timestamp, prev_hash or hash) of any one entry to a different value
makes `verify()` false. -/
theorem audit_verify_append_and_tamper (H : Payload → String)
    (hinj : Function.Injective H) (ops : List AppendOp) :
    verify H (buildChain H ops) = true ∧
    ∀ (i : Nat) (hi : i < (buildChain H ops).length) (e' : AuditEntry),
      oneFieldDiff ((buildChain H ops).get ⟨i, hi⟩) e' →
      verify H ((buildChain H ops).set i e') = false := by
  constructor
  · exact verifyFrom_of_goodChain (buildChain_good H ops)
  · intro i hi e' hd
    exact verifyFrom_set_of_oneFieldDiff hinj (buildChain H ops) GENESIS_HASH i hi e'
      (buildChain_good H ops) hd

/-! ### A concrete collision-free digest for witnesses

A length-prefixed encoding of payloads into strings; injectivity is proved
by exhibiting a decoder and a round-trip. -/

/-- Unary length prefix terminated by a `;`. -/
def encN (n : Nat) : List Char := List.replicate n 'I' ++ [';']

/-- A string: its length prefix followed by its raw characters. -/
def encS (s : String) : List Char := encN s.data.length ++ s.data

/-- A list of strings: a count prefix followed by each encoded string. -/
def encL (l : List String) : List Char := encN l.length ++ (l.map encS).flatten

def encPayload (p : Payload) : List Char :=
  encN p.index ++ encN p.timestamp ++ encS p.action ++ encL p.args ++ encS p.prev_hash

/-- The concrete digest used by witnesses. -/
def Hc (p : Payload) : String := String.mk (encPayload p)

def decN : List Char → Option (Nat × List Char)
  | ';' :: r => some (0, r)
  | 'I' :: r => (decN r).map (fun p => (p.1 + 1, p.2))
  | _ => none

def decS (cs : List Char) : Option (String × List Char) :=
  match decN cs with
  | none => none
  | some (n, r) =>
    if n ≤ r.length then some (String.mk (r.take n), r.drop n) else none

def decSs : Nat → List Char → Option (List String × List Char)
  | 0, cs => some ([], cs)
  | n + 1, cs =>
    match decS cs with
    | none => none
    | some (s, r) =>
      match decSs n r with
      | none => none
      | some (ss, r') => some (s :: ss, r')

def decPayload (cs : List Char) : Option (Payload × List Char) :=
  match decN cs with
  | none => none
  | some (i, r1) =>
    match decN r1 with
    | none => none
    | some (t, r2) =>
      match decS r2 with
      | none => none
      | some (a, r3) =>
        match decN r3 with
        | none => none
        | some (k, r4) =>
          match decSs k r4 with
          | none => none
          | some (args, r5) =>
            match decS r5 with
            | none => none
            | some (ph, r6) => some (⟨i, t, a, args, ph⟩, r6)

lemma decN_encN (n : Nat) (rest : List Char) : decN (encN n ++ rest) = some (n, rest) := by
  induction n with
  | zero => rfl
  | succ m ih =>
    show decN ('I' :: (encN m ++ rest)) = some (m + 1, rest)
    simp [decN, ih]

lemma string_mk_data (s : String) : String.mk s.data = s := by
  cases s; rfl

lemma decS_encS (s : String) (rest : List Char) : decS (encS s ++ rest) = some (s, rest) := by
  unfold decS encS
  rw [List.append_assoc, decN_encN]
  simp [List.take_left, List.drop_left, string_mk_data]

lemma decSs_encL_aux (l : List String) (rest : List Char) :
    decSs l.length ((l.map encS).flatten ++ rest) = some (l, rest) := by
  induction l generalizing rest with
  | nil => rfl
  | cons s ss ih =>
    show decSs (ss.length + 1) ((encS s ++ (ss.map encS).flatten) ++ rest) = some (s :: ss, rest)
    rw [List.append_assoc]
    simp [decSs, decS_encS, ih]

lemma decPayload_encPayload (p : Payload) (rest : List Char) :
    decPayload (encPayload p ++ rest) = some (p, rest) := by
  unfold decPayload encPayload encL
  simp only [List.append_assoc, decN_encN, decS_encS, decSs_encL_aux]

lemma Hc_inj : Function.Injective Hc := by
  intro a b h
  have hdata : encPayload a = encPayload b := congrArg String.data h
  have ha := decPayload_encPayload a []
  have hb := decPayload_encPayload b []
  rw [hdata, hb] at ha
  exact (Prod.mk.injEq _ _ _ _ ▸ (Option.some.injEq _ _ ▸ ha)).1.symm

/-- Witness for C1: a concrete one-append chain verifies, and mutating the
stored action of its entry makes verification fail. -/
theorem audit_verify_append_and_tamper_witness :
    verify Hc (buildChain Hc [⟨3, "ADD", ["01-01-01-0001"]⟩]) = true ∧
    verify Hc ((buildChain Hc [⟨3, "ADD", ["01-01-01-0001"]⟩]).set 0
      ⟨0, 3, "TAMPERED", ["01-01-01-0001"], GENESIS_HASH,
        Hc ⟨0, 3, "ADD", ["01-01-01-0001"], GENESIS_HASH⟩⟩) = false :=
  ⟨(audit_verify_append_and_tamper Hc Hc_inj [⟨3, "ADD", ["01-01-01-0001"]⟩]).1,
   (audit_verify_append_and_tamper Hc Hc_inj [⟨3, "ADD", ["01-01-01-0001"]⟩]).2 0
     (by decide)
     ⟨0, 3, "TAMPERED", ["01-01-01-0001"], GENESIS_HASH,
       Hc ⟨0, 3, "ADD", ["01-01-01-0001"], GENESIS_HASH⟩⟩
     (by decide)⟩

/-- **C8** (code-bug evaluation): at the failing input `n = 0` on a
one-entry chain, `last` returns the whole chain — Python's `entries[-0:]`
is the full slice — where the claim (and the method's own "last n entries"
contract) requires the empty list.  For `n ≥ 1` the slice is the final
`min n length` suffix, as witnessed by the closed second and third
conjuncts. -/
theorem last_zero_returns_whole_chain :
    lastEntries [⟨0, 0, "TEST", [], GENESIS_HASH, "h"⟩] 0 =
      [⟨0, 0, "TEST", [], GENESIS_HASH, "h"⟩] ∧
    (lastEntries [⟨0, 0, "TEST", [], GENESIS_HASH, "h"⟩] 0).length = 1 ∧
    lastEntries [⟨0, 0, "TEST", [], GENESIS_HASH, "h"⟩] 1 =
      [⟨0, 0, "TEST", [], GENESIS_HASH, "h"⟩] :=
  ⟨rfl, rfl, rfl⟩

/-! ## Fork and Space (`Fork`, `Space.__init__/add/...`)

`Space._nodes` and `Space._forks` are dicts keyed by canonical code; the
audit log inside `Space` is modelled as the append-only sequence of
`(action, args)` records it accumulates (the hash chain built over such a
sequence is verified above on the `AuditLog` model).  `time.time()` values
(fork creation stamps, entry timestamps) and the 2-decimal string formatting
of tension are wall-clock/display details abstracted from the record. -/

inductive Arg where
  | str (v : String)
  | nat (v : Nat)
  | strList (v : List String)
  | rat (v : ℚ)
deriving DecidableEq, Repr

structure Fork where
  source_id : SemanticID
  branches : List SemanticID
  created_at : Nat := 0
  resolved_to : Option SemanticID := none
  metadata : List (String × String) := []
deriving DecidableEq, Repr

/-- `Fork.branch_count`. -/
def Fork.branchCount (f : Fork) : Nat := f.branches.length

structure Space where
  nodes : List (String × Node) := []
  forks : List (String × Fork) := []
  audit : List (String × List Arg) := []
deriving DecidableEq, Repr

/-! ### Association-list facts -/

lemma alookup_ainsert_self {κ β : Type} [DecidableEq κ] (k : κ) (v : β)
    (m : List (κ × β)) : alookup k (ainsert k v m) = some v := by
  unfold ainsert
  split_ifs with h
  · induction m with
    | nil => simp [alookup] at h
    | cons p rest ih =>
      obtain ⟨k', v'⟩ := p
      by_cases hk : k = k'
      · subst hk; simp [aupdate, alookup]
      · simp only [alookup, if_neg hk, aupdate] at h ⊢
        exact ih h
  · induction m with
    | nil => simp [alookup]
    | cons p rest ih =>
      obtain ⟨k', v'⟩ := p
      by_cases hk : k = k'
      · subst hk; simp [alookup] at h
      · simp only [alookup, if_neg hk, Option.isSome] at h
        simp only [List.cons_append, alookup, if_neg hk]
        exact ih h

lemma alookup_ainsert_ne {κ β : Type} [DecidableEq κ] {k k' : κ} (hne : k ≠ k')
    (v : β) (m : List (κ × β)) : alookup k (ainsert k' v m) = alookup k m := by
  unfold ainsert
  split_ifs with h
  · induction m with
    | nil => rfl
    | cons p rest ih =>
      obtain ⟨k0, v0⟩ := p
      by_cases hk : k' = k0
      · subst hk
        simp [aupdate, alookup, if_neg hne]
      · simp only [alookup, if_neg hk, Option.isSome] at h
        simp only [aupdate, if_neg hk, alookup]
        by_cases hkk : k = k0
        · simp [hkk]
        · simp only [if_neg hkk]
          exact ih h
  · induction m with
    | nil => simp [alookup, if_neg hne]
    | cons p rest ih =>
      obtain ⟨k0, v0⟩ := p
      by_cases hkk : k = k0
      · simp [alookup, hkk]
      · simp only [alookup, if_neg hkk, List.cons_append]
        apply ih
        simp only [alookup] at h
        by_cases hk : k' = k0
        · simp [hk] at h
        · simpa [if_neg hk] using h

/-! ### Space.add (C4) -/

/-- `Space.add`: returns the state after the call together with the raised
error, if any.  Python raises `ValueError` before any mutation, so the
error branch returns the space unchanged. -/
def Space.add (s : Space) (n : Node) : Space × Option String :=
  let c := code n.id
  if (alookup c s.nodes).isSome then
    (s, some ("Node " ++ c ++ " already exists"))
  else
    ({ s with nodes := ainsert c n s.nodes,
              audit := s.audit ++ [("ADD", [Arg.str c, Arg.str n.label])] }, none)

/-- **C4**: adding a node whose code is already a key raises the
duplicate-coordinate error and leaves the store exactly as before; adding a
fresh node stores it and appends an `"ADD"` audit entry. -/
theorem add_duplicate_rejected (s : Space) (n : Node) :
    ((alookup (code n.id) s.nodes).isSome = true →
      (s.add n).2.isSome = true ∧ (s.add n).1 = s) ∧
    ((alookup (code n.id) s.nodes).isSome = false →
      (s.add n).2 = none ∧
      alookup (code n.id) (s.add n).1.nodes = some n ∧
      (s.add n).1.audit =
        s.audit ++ [("ADD", [Arg.str (code n.id), Arg.str n.label])]) := by
  constructor
  · intro h
    simp [Space.add, h]
  · intro h
    simp [Space.add, h, alookup_ainsert_self]

/-- Witness for C4: duplicate insert on a one-node store is rejected without
change; insert into the empty store succeeds and logs `"ADD"`. -/
theorem add_duplicate_rejected_witness :
    ((Space.add ⟨[(code ⟨1, 1, 1, 1⟩, ⟨⟨1, 1, 1, 1⟩, "cat", [], []⟩)], [], []⟩
        ⟨⟨1, 1, 1, 1⟩, "cat", [], []⟩).2.isSome = true ∧
      (Space.add ⟨[(code ⟨1, 1, 1, 1⟩, ⟨⟨1, 1, 1, 1⟩, "cat", [], []⟩)], [], []⟩
        ⟨⟨1, 1, 1, 1⟩, "cat", [], []⟩).1 =
        ⟨[(code ⟨1, 1, 1, 1⟩, ⟨⟨1, 1, 1, 1⟩, "cat", [], []⟩)], [], []⟩) ∧
    ((Space.add ⟨[], [], []⟩ ⟨⟨1, 1, 1, 1⟩, "cat", [], []⟩).2 = none ∧
      alookup (code ⟨1, 1, 1, 1⟩)
        (Space.add ⟨[], [], []⟩ ⟨⟨1, 1, 1, 1⟩, "cat", [], []⟩).1.nodes =
        some ⟨⟨1, 1, 1, 1⟩, "cat", [], []⟩ ∧
      (Space.add ⟨[], [], []⟩ ⟨⟨1, 1, 1, 1⟩, "cat", [], []⟩).1.audit =
        [] ++ [("ADD", [Arg.str (code ⟨1, 1, 1, 1⟩), Arg.str "cat"])]) :=
  ⟨(add_duplicate_rejected ⟨[(code ⟨1, 1, 1, 1⟩, ⟨⟨1, 1, 1, 1⟩, "cat", [], []⟩)], [], []⟩
      ⟨⟨1, 1, 1, 1⟩, "cat", [], []⟩).1 (by decide),
   (add_duplicate_rejected ⟨[], [], []⟩ ⟨⟨1, 1, 1, 1⟩, "cat", [], []⟩).2 (by decide)⟩

/-! ### Space.create_fork (C3) and Space.derive_tension (C5) -/

/-- `[n.id.instance for n in self._nodes.values() if n.id.shares_subtype(source)]`. -/
def existingInstances (s : Space) (src : SemanticID) : List Nat :=
  (s.nodes.map Prod.snd).filterMap
    (fun n => if sharesSubtype n.id src then some n.id.instance_ else none)

/-- Python `max(l, default=0)`. -/
def listMax (l : List Nat) : Nat := l.foldl max 0

/-- One branch node: forked label, `forked_from` metadata, and the
`FORKED_FROM` relation back to the source. -/
def branchNode (source : Node) (bid : SemanticID) (blabel : String) : Node :=
  Node.addRelation
    ⟨bid, source.label ++ ":" ++ blabel, [("forked_from", code source.id)], []⟩
    RelationType.FORKED_FROM source

/-- The branch-building loop of `create_fork`; `none` when `SemanticID.create`
raises (instance past 9999). -/
def mkBranches (source : Node) : Nat → List String → Option (List Node)
  | _, [] => some []
  | next, bl :: rest =>
    match mkSemanticID source.id.major source.id.type_ source.id.subtype next with
    | none => none
    | some bid =>
      match mkBranches source (next + 1) rest with
      | none => none
      | some bs => some (branchNode source bid bl :: bs)

/-- `Space.create_fork`: requires the source stored, allocates sequential
instances from `max(existing)+1`, stores each branch, registers (or
overwrites) the fork under the source's code and logs `"FORK"`.  `none`
models the raised `ValueError`/`SemanticIDError`. -/
def Space.createFork (s : Space) (source : Node) (branch_labels : List String) :
    Option (Space × Fork × List Node) :=
  match alookup (code source.id) s.nodes with
  | none => none
  | some _ =>
    let next := listMax (existingInstances s source.id) + 1
    match mkBranches source next branch_labels with
    | none => none
    | some bs =>
      let fork : Fork := ⟨source.id, bs.map (fun b => b.id), 0, none, []⟩
      some
        ({ nodes := bs.foldl (fun m b => ainsert (code b.id) b m) s.nodes,
           forks := ainsert (code source.id) fork s.forks,
           audit := s.audit ++ [("FORK", [Arg.str (code source.id),
             Arg.strList (bs.map (fun b => code b.id))])] },
         fork, bs)

/-- `Space.derive_tension`: `(fork_branch_count + 1) / (relation_count + 1)`,
logged as a `"DERIVE"` record.  Python computes this in floating point and
logs it formatted to two decimals; the quotient of these small naturals is
modelled exactly in `ℚ` (both claimed comparisons are exact in IEEE doubles
as well, the divisor being 1). -/
def Space.deriveTension (s : Space) (node : Node) : Space × ℚ :=
  let fork_count : Nat :=
    match alookup (code node.id) s.forks with
    | some f => f.branchCount
    | none => 0
  let tension : ℚ := (fork_count + 1) / (node.relationCount + 1)
  ({ s with audit := s.audit ++
      [("DERIVE", [Arg.str "tension", Arg.str (code node.id), Arg.rat tension])] },
   tension)

lemma branchNode_relations (source : Node) (bid : SemanticID) (bl : String) :
    (branchNode source bid bl).relations =
      [(RelationType.FORKED_FROM, [code source.id])] := by
  simp [branchNode, Node.addRelation, alookup, aupdate]

lemma mkBranches_length (source : Node) :
    ∀ (labels : List String) (next : Nat) (bs : List Node),
      mkBranches source next labels = some bs → bs.length = labels.length := by
  intro labels
  induction labels with
  | nil => intro next bs h; simp [mkBranches] at h; simp [← h]
  | cons l ls ih =>
    intro next bs h
    simp only [mkBranches] at h
    cases hmk : mkSemanticID source.id.major source.id.type_ source.id.subtype next with
    | none => rw [hmk] at h; exact absurd h (by simp)
    | some bid =>
      rw [hmk] at h
      cases hrec : mkBranches source (next + 1) ls with
      | none => rw [hrec] at h; exact absurd h (by simp)
      | some bs' =>
        rw [hrec] at h
        have := ih (next + 1) bs' hrec
        simp only [Option.some.injEq] at h
        simp [← h, this]

lemma mkBranches_spec (source : Node) (hv : source.id.Valid) :
    ∀ (labels : List String) (next : Nat), 1 ≤ next → next + labels.length ≤ 10000 →
      ∃ bs, mkBranches source next labels = some bs ∧
        bs.map (fun b => b.id) = (List.range' next labels.length).map
          (fun k => ⟨source.id.major, source.id.type_, source.id.subtype, k⟩) ∧
        bs.map Node.label = labels.map (fun l => source.label ++ ":" ++ l) ∧
        (∀ b ∈ bs, b.metadata = [("forked_from", code source.id)] ∧
          b.relations = [(RelationType.FORKED_FROM, [code source.id])] ∧
          b.id.Valid) := by
  intro labels
  induction labels with
  | nil =>
    intro next _ _
    exact ⟨[], rfl, rfl, rfl, by simp⟩
  | cons l ls ih =>
    intro next h1 h2
    obtain ⟨hm1, hm2, ht1, ht2, hs1, hs2, _, _⟩ := hv
    have hvb : SemanticID.Valid ⟨source.id.major, source.id.type_, source.id.subtype, next⟩ := by
      refine ⟨hm1, hm2, ht1, ht2, hs1, hs2, h1, by simp at h2 ⊢; omega⟩
    obtain ⟨bs, hbs, hid, hlab, hmem⟩ := ih (next + 1) (by omega) (by simp at h2 ⊢; omega)
    refine ⟨branchNode source ⟨source.id.major, source.id.type_, source.id.subtype, next⟩ l :: bs,
      ?_, ?_, ?_, ?_⟩
    · simp only [mkBranches, mkSemanticID, if_pos hvb, hbs]
    · simp only [List.map_cons, List.length_cons, List.range'_succ, hid, branchNode,
        Node.addRelation]
    · simp only [List.map_cons, hlab, branchNode, Node.addRelation]
    · intro b hb
      rcases List.mem_cons.mp hb with hb | hb
      · subst hb
        exact ⟨rfl, branchNode_relations _ _ _, hvb⟩
      · exact hmem b hb

lemma alookup_foldl_ainsert_not_mem {k : String} :
    ∀ (tl : List Node) (m : List (String × Node)),
      k ∉ tl.map (fun b => code b.id) →
      alookup k (tl.foldl (fun m b => ainsert (code b.id) b m) m) = alookup k m := by
  intro tl
  induction tl with
  | nil => intro m _; rfl
  | cons hd rest ih =>
    intro m hk
    simp only [List.map_cons, List.mem_cons] at hk
    push_neg at hk
    simp only [List.foldl_cons]
    rw [ih _ hk.2, alookup_ainsert_ne hk.1]

lemma alookup_foldl_ainsert_of_mem :
    ∀ (bs : List Node) (m : List (String × Node)),
      (bs.map (fun b => code b.id)).Nodup →
      ∀ b ∈ bs, alookup (code b.id)
        (bs.foldl (fun m b => ainsert (code b.id) b m) m) = some b := by
  intro bs
  induction bs with
  | nil => intro m _ b hb; simp at hb
  | cons hd rest ih =>
    intro m hnd b hb
    simp only [List.map_cons, List.nodup_cons] at hnd
    rcases List.mem_cons.mp hb with hb | hb
    · subst hb
      simp only [List.foldl_cons]
      rw [alookup_foldl_ainsert_not_mem rest _ hnd.1, alookup_ainsert_self]
    · exact ih _ hnd.2 b hb

/-- **C3** (amended with the instance-bound side condition the
counterexample forces): if the source is stored, its coordinate is valid
and `max(existing instances) + number of labels ≤ 9999`, then `create_fork`
allocates sequential instances from `max + 1`, builds one branch per label
with the forked label, `forked_from` metadata and a `FORKED_FROM` relation
back to the source, stores every branch, and returns a fork whose branch
count is the number of labels. -/
theorem createFork_allocates (s : Space) (source : Node) (labels : List String)
    (hsrc : (alookup (code source.id) s.nodes).isSome = true)
    (hv : source.id.Valid) (hne : labels ≠ [])
    (hroom : listMax (existingInstances s source.id) + labels.length ≤ 9999) :
    ∃ s' fork bs, s.createFork source labels = some (s', fork, bs) ∧
      fork.branchCount = labels.length ∧
      bs.map (fun b => b.id) =
        (List.range' (listMax (existingInstances s source.id) + 1) labels.length).map
          (fun k => ⟨source.id.major, source.id.type_, source.id.subtype, k⟩) ∧
      bs.map Node.label = labels.map (fun l => source.label ++ ":" ++ l) ∧
      ∀ b ∈ bs, alookup "forked_from" b.metadata = some (code source.id) ∧
        b.getRelations RelationType.FORKED_FROM = [code source.id] ∧
        alookup (code b.id) s'.nodes = some b := by
  obtain ⟨src0, hsrc0⟩ := Option.isSome_iff_exists.mp hsrc
  obtain ⟨bs, hbs, hid, hlab, hmem⟩ :=
    mkBranches_spec source hv labels (listMax (existingInstances s source.id) + 1)
      (by omega) (by omega)
  have hlen : bs.length = labels.length := by
    have := congrArg List.length hid
    simpa using this
  have hcodes : (bs.map (fun b => code b.id)).Nodup := by
    have : bs.map (fun b => code b.id) = (bs.map (fun b => b.id)).map code := by
      simp [List.map_map]
    rw [this, hid, List.map_map]
    apply List.Nodup.map_on
    · intro x hx y hy hxy
      have hxr := List.mem_range'_1.mp hx
      have hyr := List.mem_range'_1.mp hy
      obtain ⟨hm1, hm2, ht1, ht2, hs1, hs2, _, _⟩ := hv
      have hvx : SemanticID.Valid ⟨source.id.major, source.id.type_, source.id.subtype, x⟩ :=
        ⟨hm1, hm2, ht1, ht2, hs1, hs2, show 1 ≤ x by omega, show x ≤ 9999 by omega⟩
      have hvy : SemanticID.Valid ⟨source.id.major, source.id.type_, source.id.subtype, y⟩ :=
        ⟨hm1, hm2, ht1, ht2, hs1, hs2, show 1 ≤ y by omega, show y ≤ 9999 by omega⟩
      have := (code_inj_of_valid hvx hvy).mp hxy
      simpa using congrArg SemanticID.instance_ this
    · exact List.nodup_range' _ _
  have heq : s.createFork source labels =
      some ({ nodes := bs.foldl (fun m b => ainsert (code b.id) b m) s.nodes,
              forks := ainsert (code source.id)
                ⟨source.id, bs.map (fun b => b.id), 0, none, []⟩ s.forks,
              audit := s.audit ++ [("FORK", [Arg.str (code source.id),
                Arg.strList (bs.map (fun b => code b.id))])] },
            ⟨source.id, bs.map (fun b => b.id), 0, none, []⟩, bs) := by
    unfold Space.createFork
    rw [hsrc0]
    simp only [hbs]
  refine ⟨_, _, bs, heq, ?_, hid, hlab, ?_⟩
  · simpa [Fork.branchCount] using hlen
  · intro b hb
    obtain ⟨hmd, hrel, _⟩ := hmem b hb
    refine ⟨by simp [hmd, alookup], by simp [Node.getRelations, hrel, alookup], ?_⟩
    exact alookup_foldl_ainsert_of_mem bs s.nodes hcodes b hb

/-- Counterexample to C3 as stated: with the source stored at instance 9999
(so the subtype is exhausted), `create_fork` with one label raises
`SemanticIDError` (modelled `none`) instead of returning a one-branch fork. -/
theorem createFork_fails_at_instance_bound :
    Space.createFork
      ⟨[(code ⟨1, 1, 1, 9999⟩, ⟨⟨1, 1, 1, 9999⟩, "maxed", [], []⟩)], [], []⟩
      ⟨⟨1, 1, 1, 9999⟩, "maxed", [], []⟩ ["a"] = none := by
  decide

/-- Witness for C3 (amended): forking `jaguar` at `01-01-01-0001` into two
branches allocates instances 2 and 3. -/
theorem createFork_allocates_witness :
    ∃ s' fork bs,
      Space.createFork ⟨[(code ⟨1, 1, 1, 1⟩, ⟨⟨1, 1, 1, 1⟩, "jaguar", [], []⟩)], [], []⟩
        ⟨⟨1, 1, 1, 1⟩, "jaguar", [], []⟩ ["animal", "car"] = some (s', fork, bs) ∧
      fork.branchCount = (["animal", "car"] : List String).length ∧
      bs.map (fun b => b.id) =
        (List.range' (listMax (existingInstances
            ⟨[(code ⟨1, 1, 1, 1⟩, ⟨⟨1, 1, 1, 1⟩, "jaguar", [], []⟩)], [], []⟩
            (⟨1, 1, 1, 1⟩ : SemanticID)) + 1)
          (["animal", "car"] : List String).length).map
          (fun k => ⟨1, 1, 1, k⟩) ∧
      bs.map Node.label = (["animal", "car"] : List String).map (fun l => "jaguar" ++ ":" ++ l) ∧
      ∀ b ∈ bs, alookup "forked_from" b.metadata = some (code ⟨1, 1, 1, 1⟩) ∧
        b.getRelations RelationType.FORKED_FROM = [code ⟨1, 1, 1, 1⟩] ∧
        alookup (code b.id) s'.nodes = some b :=
  createFork_allocates
    ⟨[(code ⟨1, 1, 1, 1⟩, ⟨⟨1, 1, 1, 1⟩, "jaguar", [], []⟩)], [], []⟩
    ⟨⟨1, 1, 1, 1⟩, "jaguar", [], []⟩ ["animal", "car"]
    (by decide) (by decide) (by decide) (by decide)

/-- **C5**: a node with no registered fork and zero relations has tension
exactly 1; after a successful `create_fork` with at least one branch label
(and still no relations on the node), its tension is
`(labels + 1) / (relations + 1)`, strictly above 1. -/
theorem deriveTension_one_then_fork_increases (s : Space) (node : Node)
    (hrel : node.relationCount = 0) :
    (alookup (code node.id) s.forks = none → (s.deriveTension node).2 = 1) ∧
    (∀ labels s' fork bs, labels ≠ [] →
      s.createFork node labels = some (s', fork, bs) →
      (s'.deriveTension node).2 =
        ((labels.length : ℚ) + 1) / ((node.relationCount : ℚ) + 1) ∧
      1 < (s'.deriveTension node).2) := by
  constructor
  · intro hnone
    simp [Space.deriveTension, hnone, hrel]
  · intro labels s' fork bs hlne heq
    unfold Space.createFork at heq
    cases halook : alookup (code node.id) s.nodes with
    | none => rw [halook] at heq; exact absurd heq (by simp)
    | some src0 =>
      rw [halook] at heq
      dsimp only at heq
      cases hmk : mkBranches node (listMax (existingInstances s node.id) + 1) labels with
      | none => rw [hmk] at heq; exact absurd heq (by simp)
      | some bs0 =>
        rw [hmk] at heq
        simp only [Option.some.injEq, Prod.mk.injEq] at heq
        obtain ⟨hS, hF, hB⟩ := heq
        have hlen : bs0.length = labels.length := mkBranches_length node labels _ bs0 hmk
        have hpos : 0 < labels.length := List.length_pos.mpr hlne
        have hlk : alookup (code node.id) s'.forks =
            some ⟨node.id, bs0.map (fun b => b.id), 0, none, []⟩ := by
          rw [← hS]
          exact alookup_ainsert_self _ _ _
        have hval : (s'.deriveTension node).2 =
            ((labels.length : ℚ) + 1) / ((node.relationCount : ℚ) + 1) := by
          simp [Space.deriveTension, hlk, Fork.branchCount, hlen]
        refine ⟨hval, ?_⟩
        rw [hval, hrel]
        have h1 : (1 : ℚ) ≤ (labels.length : ℚ) := by exact_mod_cast hpos
        have : ((labels.length : ℚ) + 1) / ((0 : ℕ) + 1 : ℚ) = (labels.length : ℚ) + 1 := by
          norm_num
        rw [this]
        linarith

/-- Witness for C5: the fresh node `jaguar` has tension 1; after forking it
into one branch its tension exceeds 1. -/
theorem deriveTension_one_then_fork_increases_witness :
    (Space.deriveTension ⟨[], [], []⟩ ⟨⟨1, 1, 1, 1⟩, "jaguar", [], []⟩).2 = 1 ∧
    1 < (Space.deriveTension
      ⟨[(code ⟨1, 1, 1, 1⟩, ⟨⟨1, 1, 1, 1⟩, "jaguar", [], []⟩),
        (code ⟨1, 1, 1, 2⟩, branchNode ⟨⟨1, 1, 1, 1⟩, "jaguar", [], []⟩ ⟨1, 1, 1, 2⟩ "animal")],
       [(code ⟨1, 1, 1, 1⟩, ⟨⟨1, 1, 1, 1⟩, [⟨1, 1, 1, 2⟩], 0, none, []⟩)],
       [("FORK", [Arg.str (code ⟨1, 1, 1, 1⟩), Arg.strList [code ⟨1, 1, 1, 2⟩]])]⟩
      ⟨⟨1, 1, 1, 1⟩, "jaguar", [], []⟩).2 :=
  ⟨(deriveTension_one_then_fork_increases ⟨[], [], []⟩ ⟨⟨1, 1, 1, 1⟩, "jaguar", [], []⟩
      rfl).1 rfl,
   ((deriveTension_one_then_fork_increases
      ⟨[(code ⟨1, 1, 1, 1⟩, ⟨⟨1, 1, 1, 1⟩, "jaguar", [], []⟩)], [], []⟩
      ⟨⟨1, 1, 1, 1⟩, "jaguar", [], []⟩ rfl).2 ["animal"]
      ⟨[(code ⟨1, 1, 1, 1⟩, ⟨⟨1, 1, 1, 1⟩, "jaguar", [], []⟩),
        (code ⟨1, 1, 1, 2⟩, branchNode ⟨⟨1, 1, 1, 1⟩, "jaguar", [], []⟩ ⟨1, 1, 1, 2⟩ "animal")],
       [(code ⟨1, 1, 1, 1⟩, ⟨⟨1, 1, 1, 1⟩, [⟨1, 1, 1, 2⟩], 0, none, []⟩)],
       [("FORK", [Arg.str (code ⟨1, 1, 1, 1⟩), Arg.strList [code ⟨1, 1, 1, 2⟩]])]⟩
      ⟨⟨1, 1, 1, 1⟩, [⟨1, 1, 1, 2⟩], 0, none, []⟩
      [branchNode ⟨⟨1, 1, 1, 1⟩, "jaguar", [], []⟩ ⟨1, 1, 1, 2⟩ "animal"]
      (by decide) (by decide)).2⟩

/-! ## DeterministicWrapper (`Strategy`, `apply_strategy`) (C9)

`context` is a string-keyed dict read only through `.get` with fixed
defaults; it is modelled as a total record whose fields carry those
defaults (every reachable combination of present/absent keys corresponds to
a record value).  `input_data` reaching the executable strategies is a
label string.  Raised exceptions are `Except.error`: the
`Unhandled strategy` `ValueError` is the distinguished `AErr.unhandled`,
every other raise is `AErr.other`. -/

inductive Strategy where
  | CREATE_NODE | RETURN_EXISTING | CREATE_FORK | RESOLVE_FORK | ADD_RELATION
  | DERIVE_PATH | DERIVE_SIBLINGS | DERIVE_TENSION | ESCALATE
deriving DecidableEq, Repr

structure Ctx where
  major : Nat := 8
  type_ : Nat := 1
  subtype : Nat := 1
  metadata : List (String × String) := []
  branch_labels : List String := ["sense_1", "sense_2"]
deriving DecidableEq, Repr

inductive AErr where
  | unhandled (strategy : Strategy)
  | other (msg : String)
deriving DecidableEq, Repr

inductive ApplyResult where
  | node (n : Node)
  | nodes (l : List Node)
  | forked (f : Fork) (branches : List Node)
  | escalated (input : String)
deriving DecidableEq, Repr

/-- `Space.find_by_label` (case-insensitive by default). -/
def Space.findByLabel (s : Space) (label : String) (case_sensitive : Bool := false) :
    List Node :=
  if case_sensitive then
    (s.nodes.map Prod.snd).filter (fun n => n.label == label)
  else
    (s.nodes.map Prod.snd).filter (fun n => n.label.toLower == label.toLower)

/-- `DeterministicWrapper._create_node`: next instance in the context's
`(major, type, subtype)`, then `Space.add`. -/
def createNodeW (s : Space) (label : String) (ctx : Ctx) :
    Except AErr (Space × ApplyResult) :=
  let existing := (s.nodes.map Prod.snd).filterMap (fun n =>
    if n.id.major = ctx.major ∧ n.id.type_ = ctx.type_ ∧ n.id.subtype = ctx.subtype
    then some n.id.instance_ else none)
  let inst := listMax existing + 1
  match mkSemanticID ctx.major ctx.type_ ctx.subtype inst with
  | none => .error (.other "SemanticIDError")
  | some cid =>
    match s.add ⟨cid, label, ctx.metadata, []⟩ with
    | (_, some msg) => .error (.other msg)
    | (s', none) => .ok (s', .node ⟨cid, label, ctx.metadata, []⟩)

/-- `DeterministicWrapper._create_fork`: the label must resolve to at least
one node; the first match is forked. -/
def createForkW (s : Space) (label : String) (ctx : Ctx) :
    Except AErr (Space × ApplyResult) :=
  match s.findByLabel label with
  | [] => .error (.other ("Cannot fork non-existent label: " ++ label))
  | source :: _ =>
    match s.createFork source ctx.branch_labels with
    | none => .error (.other "create_fork raised")
    | some (s', fork, branches) => .ok (s', .forked fork branches)

/-- `DeterministicWrapper.apply_strategy`: the four-way `if` chain followed
by `raise ValueError(f"Unhandled strategy: {strategy}")`. -/
def applyStrategy (s : Space) (strategy : Strategy) (input : String) (ctx : Ctx) :
    Except AErr (Space × ApplyResult) :=
  if strategy = .CREATE_NODE then createNodeW s input ctx
  else if strategy = .RETURN_EXISTING then .ok (s, .nodes (s.findByLabel input))
  else if strategy = .CREATE_FORK then createForkW s input ctx
  else if strategy = .ESCALATE then .ok (s, .escalated input)
  else .error (.unhandled strategy)

/-- **C9**: for every space, input and context, the five enum members
RESOLVE_FORK, ADD_RELATION, DERIVE_PATH, DERIVE_SIBLINGS and DERIVE_TENSION
hit the `Unhandled strategy` raise, while CREATE_NODE, RETURN_EXISTING,
CREATE_FORK and ESCALATE execute: each returns a result or raises one of
its own distinct errors, never the unhandled-strategy one. -/
theorem applyStrategy_unhandled_members (s : Space) (input : String) (ctx : Ctx) :
    applyStrategy s .RESOLVE_FORK input ctx = .error (.unhandled .RESOLVE_FORK) ∧
    applyStrategy s .ADD_RELATION input ctx = .error (.unhandled .ADD_RELATION) ∧
    applyStrategy s .DERIVE_PATH input ctx = .error (.unhandled .DERIVE_PATH) ∧
    applyStrategy s .DERIVE_SIBLINGS input ctx = .error (.unhandled .DERIVE_SIBLINGS) ∧
    applyStrategy s .DERIVE_TENSION input ctx = .error (.unhandled .DERIVE_TENSION) ∧
    ((∃ sp r, applyStrategy s .CREATE_NODE input ctx = .ok (sp, r)) ∨
      (∃ msg, applyStrategy s .CREATE_NODE input ctx = .error (.other msg))) ∧
    applyStrategy s .RETURN_EXISTING input ctx = .ok (s, .nodes (s.findByLabel input)) ∧
    ((∃ sp r, applyStrategy s .CREATE_FORK input ctx = .ok (sp, r)) ∨
      (∃ msg, applyStrategy s .CREATE_FORK input ctx = .error (.other msg))) ∧
    applyStrategy s .ESCALATE input ctx = .ok (s, .escalated input) := by
  refine ⟨rfl, rfl, rfl, rfl, rfl, ?_, rfl, ?_, rfl⟩
  · show (∃ sp r, createNodeW s input ctx = .ok (sp, r)) ∨
      (∃ msg, createNodeW s input ctx = .error (.other msg))
    unfold createNodeW
    dsimp only
    split
    · exact Or.inr ⟨_, rfl⟩
    · split
      · exact Or.inr ⟨_, rfl⟩
      · exact Or.inl ⟨_, _, rfl⟩
  · show (∃ sp r, createForkW s input ctx = .ok (sp, r)) ∨
      (∃ msg, createForkW s input ctx = .error (.other msg))
    unfold createForkW
    split
    · exact Or.inr ⟨_, rfl⟩
    · split
      · exact Or.inr ⟨_, rfl⟩
      · exact Or.inl ⟨_, _, rfl⟩

/-! ## Derivation queries and their audit trail (C6)

`derive_siblings`, `derive_cousins`, `derive_category`, `derive_tension`
and `derive_neighbors` each append exactly one `"DERIVE"` record before
answering.  `derive_path` is recursive with a shared mutable `visited` set
(threaded explicitly below) and logs only on a direct relation hit or via
the `derive_siblings` fallback.  The recursion in Lean is driven by a fuel
argument: Python terminates because each non-trivial call permanently marks
one previously unvisited code drawn from the stored nodes (plus the
starting node), so `node count + 2` fuel is never exhausted; every fact
proved below holds for every positive fuel. -/

def Space.deriveSiblings (s : Space) (node : Node) : Space × List Node :=
  ({ s with audit := s.audit ++
      [("DERIVE", [Arg.str "siblings", Arg.str (code node.id)])] },
   (s.nodes.map Prod.snd).filter
     (fun n => decide (sharesType n.id node.id ∧ code n.id ≠ code node.id)))

def Space.deriveCousins (s : Space) (node : Node) : Space × List Node :=
  ({ s with audit := s.audit ++
      [("DERIVE", [Arg.str "cousins", Arg.str (code node.id)])] },
   (s.nodes.map Prod.snd).filter
     (fun n => decide (sharesSubtype n.id node.id ∧ code n.id ≠ code node.id)))

def Space.deriveCategory (s : Space) (major : Nat) : Space × List Node :=
  ({ s with audit := s.audit ++
      [("DERIVE", [Arg.str "category", Arg.nat major])] },
   (s.nodes.map Prod.snd).filter (fun n => decide (n.id.major = major)))

def Space.deriveNeighbors (s : Space) (node : Node) (max_distance : Nat := 2) :
    Space × List (Node × Nat) :=
  ({ s with audit := s.audit ++
      [("DERIVE", [Arg.str "neighbors", Arg.str (code node.id), Arg.nat max_distance])] },
   ((s.nodes.map Prod.snd).filterMap (fun other =>
      if code other.id ≠ code node.id then
        if distance node.id other.id ≤ max_distance then
          some (other, distance node.id other.id)
        else none
      else none)).mergeSort (fun a b => a.2 ≤ b.2))

inductive PathElem where
  | node (n : Node)
  | marker (s : String)
deriving DecidableEq, Repr

mutual

/-- `Space.derive_path` body: equal codes short-circuit, visited guard,
mark visited, explicit-relation loop, then the sibling fallback. -/
def derivePathAux (fuel : Nat) (s : Space) (end_ start : Node)
    (visited : List String) : Space × List String × Option (List PathElem) :=
  match fuel with
  | 0 => (s, visited, none)
  | fuel' + 1 =>
    if code start.id = code end_.id then (s, visited, some [PathElem.node start])
    else if code start.id ∈ visited then (s, visited, none)
    else
      match relLoop fuel' s end_ start (code start.id :: visited) start.relations with
      | (s1, v1, some p) => (s1, v1, some p)
      | (s1, v1, none) =>
        match s1.deriveSiblings start with
        | (s2, sibs) => sibLoop fuel' s2 end_ start v1 sibs
termination_by (fuel, 0, 0)

/-- The outer `for rel_type, targets in start.relations.items()` loop. -/
def relLoop (fuel : Nat) (s : Space) (end_ start : Node) (visited : List String)
    (items : List (RelationType × List String)) :
    Space × List String × Option (List PathElem) :=
  match items with
  | [] => (s, visited, none)
  | (_, targets) :: rest =>
    match tgtLoop fuel s end_ start visited targets with
    | (s', v', some p) => (s', v', some p)
    | (s', v', none) => relLoop fuel s' end_ start v' rest
termination_by (fuel, 2, items.length)

/-- The inner `for target_code in targets` loop: direct hit logs and
returns `[start, end]`; otherwise recurse through the stored target,
keeping a truthy (non-`None`, non-empty) sub-path. -/
def tgtLoop (fuel : Nat) (s : Space) (end_ start : Node) (visited : List String)
    (targets : List String) : Space × List String × Option (List PathElem) :=
  match targets with
  | [] => (s, visited, none)
  | tc :: rest =>
    if tc = code end_.id then
      ({ s with audit := s.audit ++ [("DERIVE", [Arg.str "path",
          Arg.str (code start.id), Arg.str "->", Arg.str (code end_.id)])] },
       visited, some [PathElem.node start, PathElem.node end_])
    else
      match alookup tc s.nodes with
      | none => tgtLoop fuel s end_ start visited rest
      | some tn =>
        match derivePathAux fuel s end_ tn visited with
        | (s', v', some p) =>
          if p.isEmpty then tgtLoop fuel s' end_ start v' rest
          else (s', v', some (PathElem.node start :: p))
        | (s', v', none) => tgtLoop fuel s' end_ start v' rest
termination_by (fuel, 1, targets.length)

/-- The `for sibling in self.derive_siblings(start)` fallback loop. -/
def sibLoop (fuel : Nat) (s : Space) (end_ start : Node) (visited : List String)
    (sibs : List Node) : Space × List String × Option (List PathElem) :=
  match sibs with
  | [] => (s, visited, none)
  | sib :: rest =>
    if code sib.id ∈ visited then sibLoop fuel s end_ start visited rest
    else
      match derivePathAux fuel s end_ sib visited with
      | (s', v', some p) =>
        if p.isEmpty then sibLoop fuel s' end_ start v' rest
        else (s', v', some (PathElem.node start :: PathElem.marker "(via sibling)" :: p))
      | (s', v', none) => sibLoop fuel s' end_ start v' rest
termination_by (fuel, 1, sibs.length)

end

/-- `Space.derive_path(start, end)`: fresh `visited`, fuel as above. -/
def Space.derivePath (s : Space) (start end_ : Node) :
    Space × List String × Option (List PathElem) :=
  derivePathAux (s.nodes.length + 2) s end_ start []

/-- Store well-formation: every node sits under its own canonical code.
Both mutating operations (`add`, `create_fork`) store nodes only under
`node.id.code`, so every reachable `Space` satisfies this. -/
def WFnodes (s : Space) : Prop :=
  ∀ k n, alookup k s.nodes = some n → code n.id = k

lemma WFnodes_of_eq {s s' : Space} (h : s'.nodes = s.nodes) (hw : WFnodes s) :
    WFnodes s' := fun k n hk => hw k n (h ▸ hk)


/-- The combined invariant of one `derive_path` recursion level: the node
map is untouched, the audit only grows, and on any successful return with
`start ≠ end` (by code) at least one entry was appended. -/
def AuxOK (end_ : Node) (f : Nat) : Prop :=
  ∀ (s : Space) (st : Node) (v : List String), WFnodes s →
    (derivePathAux f s end_ st v).1.nodes = s.nodes ∧
    s.audit.length ≤ (derivePathAux f s end_ st v).1.audit.length ∧
    (code st.id ≠ code end_.id →
      ∀ p, (derivePathAux f s end_ st v).2.2 = some p →
        s.audit.length < (derivePathAux f s end_ st v).1.audit.length)

lemma tgtLoop_props (end_ : Node) (f : Nat) (ha : AuxOK end_ f) :
    ∀ (targets : List String) (s : Space) (st : Node) (v : List String),
      WFnodes s → code st.id ≠ code end_.id →
      (tgtLoop f s end_ st v targets).1.nodes = s.nodes ∧
      s.audit.length ≤ (tgtLoop f s end_ st v targets).1.audit.length ∧
      (∀ p, (tgtLoop f s end_ st v targets).2.2 = some p →
        s.audit.length < (tgtLoop f s end_ st v targets).1.audit.length) := by
  intro targets
  induction targets with
  | nil =>
    intro s st v hwf hne
    refine ⟨?_, ?_, fun p hp => ?_⟩
    · simp [tgtLoop]
    · simp [tgtLoop]
    · simp [tgtLoop] at hp
  | cons tc rest ih =>
    intro s st v hwf hne
    by_cases htc : tc = code end_.id
    · have heq : tgtLoop f s end_ st v (tc :: rest) =
          ({ s with audit := s.audit ++ [("DERIVE", [Arg.str "path",
              Arg.str (code st.id), Arg.str "->", Arg.str (code end_.id)])] }, v,
           some [PathElem.node st, PathElem.node end_]) := by
        simp [tgtLoop, htc]
      rw [heq]
      exact ⟨rfl, by simp, fun p _ => by simp⟩
    · cases hlk : alookup tc s.nodes with
      | none =>
        have heq : tgtLoop f s end_ st v (tc :: rest) = tgtLoop f s end_ st v rest := by
          simp [tgtLoop, htc, hlk]
        rw [heq]
        exact ih s st v hwf hne
      | some tn =>
        have htn : code tn.id = tc := hwf tc tn hlk
        have hnetn : code tn.id ≠ code end_.id := by rw [htn]; exact htc
        rcases hd : derivePathAux f s end_ tn v with ⟨s', v', r⟩
        have hA := ha s tn v hwf
        rw [hd] at hA
        obtain ⟨hAn, hAm, hAs⟩ := hA
        have hAn' : s'.nodes = s.nodes := hAn
        have hAm' : s.audit.length ≤ s'.audit.length := hAm
        cases r with
        | some p =>
          have hstrict : s.audit.length < s'.audit.length := hAs hnetn p rfl
          by_cases hemp : p.isEmpty
          · have heq : tgtLoop f s end_ st v (tc :: rest) = tgtLoop f s' end_ st v' rest := by
              simp [tgtLoop, htc, hlk, hd, hemp]
            rw [heq]
            obtain ⟨hn, hm, hs⟩ := ih s' st v' (WFnodes_of_eq hAn' hwf) hne
            exact ⟨hn.trans hAn', le_trans (le_of_lt hstrict) hm,
              fun q hq => lt_trans hstrict (hs q hq)⟩
          · have heq : tgtLoop f s end_ st v (tc :: rest) =
                (s', v', some (PathElem.node st :: p)) := by
              simp [tgtLoop, htc, hlk, hd, hemp]
            rw [heq]
            exact ⟨hAn', le_of_lt hstrict, fun q _ => hstrict⟩
        | none =>
          have heq : tgtLoop f s end_ st v (tc :: rest) = tgtLoop f s' end_ st v' rest := by
            simp [tgtLoop, htc, hlk, hd]
          rw [heq]
          obtain ⟨hn, hm, hs⟩ := ih s' st v' (WFnodes_of_eq hAn' hwf) hne
          exact ⟨hn.trans hAn', le_trans hAm' hm, fun q hq => lt_of_le_of_lt hAm' (hs q hq)⟩

lemma relLoop_props (end_ : Node) (f : Nat) (ha : AuxOK end_ f) :
    ∀ (items : List (RelationType × List String)) (s : Space) (st : Node)
      (v : List String), WFnodes s → code st.id ≠ code end_.id →
      (relLoop f s end_ st v items).1.nodes = s.nodes ∧
      s.audit.length ≤ (relLoop f s end_ st v items).1.audit.length ∧
      (∀ p, (relLoop f s end_ st v items).2.2 = some p →
        s.audit.length < (relLoop f s end_ st v items).1.audit.length) := by
  intro items
  induction items with
  | nil =>
    intro s st v hwf hne
    refine ⟨?_, ?_, fun p hp => ?_⟩
    · simp [relLoop]
    · simp [relLoop]
    · simp [relLoop] at hp
  | cons item rest ih =>
    intro s st v hwf hne
    obtain ⟨rt, targets⟩ := item
    rcases ht : tgtLoop f s end_ st v targets with ⟨s', v', r⟩
    have hT := tgtLoop_props end_ f ha targets s st v hwf hne
    rw [ht] at hT
    obtain ⟨hTn, hTm, hTs⟩ := hT
    have hTn' : s'.nodes = s.nodes := hTn
    have hTm' : s.audit.length ≤ s'.audit.length := hTm
    cases r with
    | some p =>
      have heq : relLoop f s end_ st v ((rt, targets) :: rest) = (s', v', some p) := by
        simp [relLoop, ht]
      rw [heq]
      exact ⟨hTn', hTm', fun q _ => hTs p rfl⟩
    | none =>
      have heq : relLoop f s end_ st v ((rt, targets) :: rest) =
          relLoop f s' end_ st v' rest := by
        simp [relLoop, ht]
      rw [heq]
      obtain ⟨hn, hm, hs⟩ := ih s' st v' (WFnodes_of_eq hTn' hwf) hne
      exact ⟨hn.trans hTn', le_trans hTm' hm, fun q hq => lt_of_le_of_lt hTm' (hs q hq)⟩

lemma sibLoop_props (end_ : Node) (f : Nat) (ha : AuxOK end_ f) :
    ∀ (sibs : List Node) (s : Space) (st : Node) (v : List String), WFnodes s →
      (sibLoop f s end_ st v sibs).1.nodes = s.nodes ∧
      s.audit.length ≤ (sibLoop f s end_ st v sibs).1.audit.length := by
  intro sibs
  induction sibs with
  | nil =>
    intro s st v hwf
    constructor
    · simp [sibLoop]
    · simp [sibLoop]
  | cons sib rest ih =>
    intro s st v hwf
    by_cases hv : code sib.id ∈ v
    · have heq : sibLoop f s end_ st v (sib :: rest) = sibLoop f s end_ st v rest := by
        simp [sibLoop, hv]
      rw [heq]
      exact ih s st v hwf
    · rcases hd : derivePathAux f s end_ sib v with ⟨s', v', r⟩
      have hA := ha s sib v hwf
      rw [hd] at hA
      obtain ⟨hAn, hAm, _⟩ := hA
      have hAn' : s'.nodes = s.nodes := hAn
      have hAm' : s.audit.length ≤ s'.audit.length := hAm
      cases r with
      | some p =>
        by_cases hemp : p.isEmpty
        · have heq : sibLoop f s end_ st v (sib :: rest) = sibLoop f s' end_ st v' rest := by
            simp [sibLoop, hv, hd, hemp]
          rw [heq]
          obtain ⟨hn, hm⟩ := ih s' st v' (WFnodes_of_eq hAn' hwf)
          exact ⟨hn.trans hAn', le_trans hAm' hm⟩
        · have heq : sibLoop f s end_ st v (sib :: rest) =
              (s', v', some (PathElem.node st :: PathElem.marker "(via sibling)" :: p)) := by
            simp [sibLoop, hv, hd, hemp]
          rw [heq]
          exact ⟨hAn', hAm'⟩
      | none =>
        have heq : sibLoop f s end_ st v (sib :: rest) = sibLoop f s' end_ st v' rest := by
          simp [sibLoop, hv, hd]
        rw [heq]
        obtain ⟨hn, hm⟩ := ih s' st v' (WFnodes_of_eq hAn' hwf)
        exact ⟨hn.trans hAn', le_trans hAm' hm⟩

lemma derivePathAux_props (end_ : Node) : ∀ f : Nat, AuxOK end_ f := by
  intro f
  induction f with
  | zero =>
    intro s st v hwf
    refine ⟨?_, ?_, fun hne p hp => ?_⟩
    · simp [derivePathAux]
    · simp [derivePathAux]
    · simp [derivePathAux] at hp
  | succ f ih =>
    intro s st v hwf
    by_cases h1 : code st.id = code end_.id
    · have heq : derivePathAux (f + 1) s end_ st v = (s, v, some [PathElem.node st]) := by
        simp [derivePathAux, h1]
      rw [heq]
      exact ⟨rfl, le_refl _, fun hne => absurd h1 hne⟩
    · by_cases h2 : code st.id ∈ v
      · have heq : derivePathAux (f + 1) s end_ st v = (s, v, none) := by
          simp [derivePathAux, h1, h2]
        rw [heq]
        exact ⟨rfl, le_refl _, fun hne p hp => by simp at hp⟩
      · rcases hr : relLoop f s end_ st (code st.id :: v) st.relations with ⟨s1, v1, r1⟩
        have hR := relLoop_props end_ f ih st.relations s st (code st.id :: v) hwf h1
        rw [hr] at hR
        obtain ⟨hRn, hRm, hRs⟩ := hR
        have hRn' : s1.nodes = s.nodes := hRn
        have hRm' : s.audit.length ≤ s1.audit.length := hRm
        cases r1 with
        | some p =>
          have heq : derivePathAux (f + 1) s end_ st v = (s1, v1, some p) := by
            simp [derivePathAux, h1, h2, hr]
          rw [heq]
          exact ⟨hRn', hRm', fun hne q hq => hRs p rfl⟩
        | none =>
          rcases hsib : s1.deriveSiblings st with ⟨s2, sibs⟩
          have heq : derivePathAux (f + 1) s end_ st v = sibLoop f s2 end_ st v1 sibs := by
            simp [derivePathAux, h1, h2, hr, hsib]
          have hs2n : s2.nodes = s1.nodes := by
            have h := congrArg (fun x => x.1.nodes) hsib
            simpa [Space.deriveSiblings] using h.symm
          have hs2a : s2.audit.length = s1.audit.length + 1 := by
            have h := congrArg (fun x => x.1.audit.length) hsib
            simpa [Space.deriveSiblings] using h.symm
          obtain ⟨hSn, hSm⟩ :=
            sibLoop_props end_ f ih sibs s2 st v1 (WFnodes_of_eq (hs2n.trans hRn') hwf)
          have hSm' : s2.audit.length ≤ (sibLoop f s2 end_ st v1 sibs).1.audit.length := hSm
          rw [heq]
          refine ⟨hSn.trans (hs2n.trans hRn'), by omega, fun hne q hq => by omega⟩

lemma derivePathAux_strict_unvisited (end_ : Node) (f : Nat) (s : Space) (st : Node)
    (v : List String) (hwf : WFnodes s) (hne : code st.id ≠ code end_.id)
    (hnv : code st.id ∉ v) :
    s.audit.length < (derivePathAux (f + 1) s end_ st v).1.audit.length := by
  rcases hr : relLoop f s end_ st (code st.id :: v) st.relations with ⟨s1, v1, r1⟩
  have hR := relLoop_props end_ f (derivePathAux_props end_ f) st.relations s st
    (code st.id :: v) hwf hne
  rw [hr] at hR
  obtain ⟨hRn, hRm, hRs⟩ := hR
  have hRn' : s1.nodes = s.nodes := hRn
  have hRm' : s.audit.length ≤ s1.audit.length := hRm
  cases r1 with
  | some p =>
    have heq : derivePathAux (f + 1) s end_ st v = (s1, v1, some p) := by
      simp [derivePathAux, hne, hnv, hr]
    rw [heq]
    exact hRs p rfl
  | none =>
    rcases hsib : s1.deriveSiblings st with ⟨s2, sibs⟩
    have heq : derivePathAux (f + 1) s end_ st v = sibLoop f s2 end_ st v1 sibs := by
      simp [derivePathAux, hne, hnv, hr, hsib]
    have hs2a : s2.audit.length = s1.audit.length + 1 := by
      have h := congrArg (fun x => x.1.audit.length) hsib
      simpa [Space.deriveSiblings] using h.symm
    have hs2n : s2.nodes = s1.nodes := by
      have h := congrArg (fun x => x.1.nodes) hsib
      simpa [Space.deriveSiblings] using h.symm
    obtain ⟨_, hSm⟩ := sibLoop_props end_ f (derivePathAux_props end_ f) sibs s2 st v1
      (WFnodes_of_eq (hs2n.trans hRn') hwf)
    have hSm' : s2.audit.length ≤ (sibLoop f s2 end_ st v1 sibs).1.audit.length := hSm
    rw [heq]
    omega

lemma derivePathAux_equal_codes (end_ : Node) (f : Nat) (s : Space) (st : Node)
    (v : List String) (heq : code st.id = code end_.id) :
    derivePathAux (f + 1) s end_ st v = (s, v, some [PathElem.node st]) := by
  simp [derivePathAux, heq]

/-- **C6** (amended): `deriveSiblings`, `deriveCousins`, `deriveCategory`,
`deriveTension` and `deriveNeighbors` each append exactly one audit entry
for every input, and `derivePath` appends at least one whenever the start
and end coordinates differ — but when they are equal it returns immediately
and appends nothing (the space is untouched).  The store hypothesis
`WFnodes` (every node keyed by its own code) holds for every space built by
the mutating operations. -/
theorem derivation_queries_logged (s : Space) (node : Node) (major max_distance : Nat)
    (start end_ : Node) (hwf : WFnodes s) :
    (s.deriveSiblings node).1.audit.length = s.audit.length + 1 ∧
    (s.deriveCousins node).1.audit.length = s.audit.length + 1 ∧
    (s.deriveCategory major).1.audit.length = s.audit.length + 1 ∧
    (s.deriveTension node).1.audit.length = s.audit.length + 1 ∧
    (s.deriveNeighbors node max_distance).1.audit.length = s.audit.length + 1 ∧
    (code start.id ≠ code end_.id →
      s.audit.length < (s.derivePath start end_).1.audit.length) ∧
    (code start.id = code end_.id → (s.derivePath start end_).1 = s) := by
  refine ⟨by simp [Space.deriveSiblings], by simp [Space.deriveCousins],
    by simp [Space.deriveCategory], by simp [Space.deriveTension],
    by simp [Space.deriveNeighbors], ?_, ?_⟩
  · intro hne
    show s.audit.length <
      (derivePathAux (s.nodes.length + 1 + 1) s end_ start []).1.audit.length
    exact derivePathAux_strict_unvisited end_ (s.nodes.length + 1) s start [] hwf hne
      (by simp)
  · intro heq
    show (derivePathAux (s.nodes.length + 1 + 1) s end_ start []).1 = s
    rw [derivePathAux_equal_codes end_ (s.nodes.length + 1) s start [] heq]

/-- Counterexample to C6 as stated: `derive_path` called with equal start
and end coordinates returns `[start]` before reaching any audit append, so
no entry is logged. -/
theorem derivePath_equal_coords_unlogged :
    ((Space.mk [] [] []).derivePath ⟨⟨1, 1, 1, 1⟩, "a", [], []⟩
      ⟨⟨1, 1, 1, 1⟩, "a", [], []⟩).1.audit = [] := by
  show (derivePathAux (0 + 1 + 1) (Space.mk [] [] []) ⟨⟨1, 1, 1, 1⟩, "a", [], []⟩
    ⟨⟨1, 1, 1, 1⟩, "a", [], []⟩ []).1.audit = []
  rw [derivePathAux_equal_codes _ (0 + 1) _ _ [] rfl]

/-- Witness for C6 on concrete inputs over the empty space: all five simple
queries log exactly one entry, a path query between distinct coordinates
logs at least one entry, and a path query between equal coordinates leaves
the space untouched. -/
theorem derivation_queries_logged_witness :
    ((Space.mk [] [] []).deriveSiblings ⟨⟨1, 1, 1, 1⟩, "a", [], []⟩).1.audit.length =
      (Space.mk [] [] []).audit.length + 1 ∧
    ((Space.mk [] [] []).deriveCousins ⟨⟨1, 1, 1, 1⟩, "a", [], []⟩).1.audit.length =
      (Space.mk [] [] []).audit.length + 1 ∧
    ((Space.mk [] [] []).deriveCategory 1).1.audit.length =
      (Space.mk [] [] []).audit.length + 1 ∧
    ((Space.mk [] [] []).deriveTension ⟨⟨1, 1, 1, 1⟩, "a", [], []⟩).1.audit.length =
      (Space.mk [] [] []).audit.length + 1 ∧
    ((Space.mk [] [] []).deriveNeighbors ⟨⟨1, 1, 1, 1⟩, "a", [], []⟩ 2).1.audit.length =
      (Space.mk [] [] []).audit.length + 1 ∧
    (Space.mk [] [] []).audit.length <
      ((Space.mk [] [] []).derivePath ⟨⟨1, 1, 1, 1⟩, "a", [], []⟩
        ⟨⟨2, 1, 1, 1⟩, "b", [], []⟩).1.audit.length ∧
    ((Space.mk [] [] []).derivePath ⟨⟨1, 1, 1, 1⟩, "a", [], []⟩
      ⟨⟨1, 1, 1, 1⟩, "a", [], []⟩).1 = Space.mk [] [] [] := by
  have h1 := derivation_queries_logged (Space.mk [] [] []) ⟨⟨1, 1, 1, 1⟩, "a", [], []⟩ 1 2
    ⟨⟨1, 1, 1, 1⟩, "a", [], []⟩ ⟨⟨2, 1, 1, 1⟩, "b", [], []⟩
    (fun k n hk => by simp [alookup] at hk)
  have h2 := derivation_queries_logged (Space.mk [] [] []) ⟨⟨1, 1, 1, 1⟩, "a", [], []⟩ 1 2
    ⟨⟨1, 1, 1, 1⟩, "a", [], []⟩ ⟨⟨1, 1, 1, 1⟩, "a", [], []⟩
    (fun k n hk => by simp [alookup] at hk)
  exact ⟨h1.1, h1.2.1, h1.2.2.1, h1.2.2.2.1, h1.2.2.2.2.1,
    h1.2.2.2.2.2.1 (by decide), h2.2.2.2.2.2.2 rfl⟩

/-- Witness for C10: two nodes at the same coordinate but with different
labels and metadata compare equal and share the hash input. -/
theorem node_eq_hash_by_id_witness :
    Node.pyEq ⟨⟨1, 1, 1, 1⟩, "x", [], []⟩ ⟨⟨1, 1, 1, 1⟩, "y", [("k", "v")], []⟩ = true ∧
    Node.pyHashKey ⟨⟨1, 1, 1, 1⟩, "x", [], []⟩ =
      Node.pyHashKey ⟨⟨1, 1, 1, 1⟩, "y", [("k", "v")], []⟩ :=
  ⟨(node_eq_hash_by_id ⟨⟨1, 1, 1, 1⟩, "x", [], []⟩
      ⟨⟨1, 1, 1, 1⟩, "y", [("k", "v")], []⟩).2.1 "x" [] [] "y" [("k", "v")] [],
   (node_eq_hash_by_id ⟨⟨1, 1, 1, 1⟩, "x", [], []⟩
      ⟨⟨1, 1, 1, 1⟩, "y", [("k", "v")], []⟩).2.2 (by decide)⟩
